import Mathlib

/-
Verification of NanoGPTLangugageModel.py (clankur/eingpt).

The development has three layers:

1. Vocabulary codec (source lines 25-32): the character/integer mappings
   stoi / itos / encode / decode, over an arbitrary corpus.

2. Shape-level semantics (source lines 114-272): an executable model of the
   sequence-length and cache-length bookkeeping of MultiHeadAttention.forward,
   NanoGPTLanguageModel.forward and NanoGPTLanguageModel.generate, including
   the runtime errors the Python code can raise: the TypeError from
   zip(self.blocks, None) when blocks_kvcache is left at its default, the
   IndexError from a position-embedding lookup at an index >= block_size, the
   broadcast failure of masked_fill when the sliced tril mask does not
   broadcast against the score tensor, and the IndexError from logits[:, -1, :]
   on an empty time dimension.

3. Value-level semantics (source lines 60-272): the real-number semantics of
   Head, MultiHeadAttention, FeedForward, Block and the language model,
   with tensors as Fin/List-indexed functions into the reals.  Dropout is
   modelled as the identity (its inference behaviour); torch.multinomial is
   modelled by an oracle giving the sampled index at each generation step.
-/

namespace NanoGPT

/-! ### Hyperparameters (source lines 7-17) -/

def block_size : ℕ := 256
def n_embd : ℕ := 384
def n_head : ℕ := 6
def n_layer : ℕ := 6

/-- head_size = n_embd // n_head, as computed in Block.__init__ (line 181). -/
def head_size : ℕ := n_embd / n_head

/-! ### Vocabulary codec (source lines 25-32)

chars = sorted(list(set(text))); stoi maps a character to its index in chars,
itos maps an index back; both are Python dicts, and a missing key raises
KeyError, which we model with Option.  Python's sorted is modelled by
insertion sort (any correct sort; the input is duplicate-free). -/

def chars (text : List Char) : List Char :=
  List.insertionSort (· ≤ ·) text.dedup

def stoi (text : List Char) (c : Char) : Option ℕ :=
  if c ∈ chars text then some (List.indexOf c (chars text)) else none

def itos (text : List Char) (i : ℕ) : Option Char :=
  (chars text).get? i

/-- encode = lambda s: [stoi[c] for c in s] (line 31); a character outside the
vocabulary raises KeyError, so no list is produced at all. -/
def encode (text : List Char) : List Char → Option (List ℕ)
  | [] => some []
  | c :: rest =>
    match stoi text c, encode text rest with
    | some i, some l => some (i :: l)
    | _, _ => none

/-- decode = lambda l: ''.join([itos[i] for i in l]) (line 32). -/
def decode (text : List Char) : List ℕ → Option (List Char)
  | [] => some []
  | i :: rest =>
    match itos text i, decode text rest with
    | some c, some l => some (c :: l)
    | _, _ => none

/-! ### Shape-level semantics

The runtime errors the forward/generate code can raise, in the order the
Python interpreter would encounter them. -/

inductive Err where
  /-- TypeError from zip(self.blocks, None) at line 232 when blocks_kvcache
  is left at its default None. -/
  | zipNone
  /-- IndexError from nn.Embedding(block_size, ...) at line 228 when some
  position index history_length + t is >= block_size. -/
  | posEmb
  /-- Broadcast failure of masked_fill at line 140 when the sliced tril mask
  cannot broadcast against the [B, n, T, K] score tensor. -/
  | maskBroadcast
  /-- IndexError from logits[:, -1, :] at line 265 when the time dimension
  is empty. -/
  | lastIndex
deriving DecidableEq

/-- Length kept by the cache truncation prev_k[:, :, -block_size-1:, :]
(line 133): the most recent block_size + 1 time-steps, everything when the
cache is shorter. -/
def truncLen (p : ℕ) : ℕ := min p (block_size + 1)

/-- Key length and updated cache length of MultiHeadAttention.forward
(lines 130-136): with use_cache and a present cache of length p, keys become
the truncated cache plus the T new steps and the cache is replaced by them;
with use_cache and no cache the new keys are cached as is; without use_cache
the cache is returned untouched. -/
def mhaShapeKV (T : ℕ) (use_cache : Bool) (kvcache : Option ℕ) : ℕ × Option ℕ :=
  match use_cache, kvcache with
  | true, some p => (truncLen p + T, some (truncLen p + T))
  | true, none => (T, some T)
  | false, c => (T, c)

/-- Broadcast admissibility of masked_fill (line 140): tril[:, :, :T, :T]
has shape [1, 1, min T block_size, min T block_size] and must broadcast
against the [B, n, T, K] attention scores: each sliced dimension must equal
the corresponding score dimension or be 1. -/
def maskOk (T K : ℕ) : Prop :=
  (min T block_size = T ∨ min T block_size = 1) ∧
    (min T block_size = K ∨ min T block_size = 1)

instance (T K : ℕ) : Decidable (maskOk T K) := by unfold maskOk; infer_instance

/-- Shape behaviour of one MultiHeadAttention.forward call: the returned
sequence length equals the input length T; the result is the updated cache. -/
def mhaShape (T : ℕ) (use_cache : Bool) (kvcache : Option ℕ) : Except Err (Option ℕ) :=
  let r := mhaShapeKV T use_cache kvcache
  if maskOk T r.1 then .ok r.2 else .error .maskBroadcast

/-- Shape behaviour of Block.forward (lines 187-201): LayerNorm, FeedForward
and the residual additions preserve the sequence length, so only the
attention call matters. -/
def blockShape (T : ℕ) (use_cache : Bool) (kvcache : Option ℕ) : Except Err (Option ℕ) :=
  mhaShape T use_cache kvcache

/-- Shape behaviour of the loop over zip(self.blocks, blocks_kvcache)
(lines 232-234): n counts the remaining blocks; zip stops at the shorter of
the two lists. -/
def blocksShape (T : ℕ) (use_cache : Bool) : ℕ → List (Option ℕ) → Except Err (List (Option ℕ))
  | n + 1, c :: cs =>
    match blockShape T use_cache c with
    | .error e => .error e
    | .ok c' =>
      match blocksShape T use_cache n cs with
      | .error e => .error e
      | .ok cs' => .ok (c' :: cs')
  | _, _ => .ok []

/-- history_length (line 227): 0 if blocks_kvcache is None or empty (both are
falsy) or its first entry is None; otherwise the cached time length
blocks_kvcache[0][0].shape[2]. -/
def historyLength (blocks_kvcache : Option (List (Option ℕ))) : ℕ :=
  match blocks_kvcache with
  | none => 0
  | some cs =>
    match cs.head? with
    | some (some h) => h
    | _ => 0

/-- Shape behaviour of NanoGPTLanguageModel.forward (lines 212-249) on an
input of time length T.  The position-embedding lookup at line 228 reads
indices history_length, ..., history_length + T - 1 from a table with
block_size rows and raises when T >= 1 and the largest index is out of range;
this happens before the block loop, which itself raises TypeError when
blocks_kvcache is None (zip over None at line 232).  targets only influence
the loss computed after the loop and never affect these outcomes.  The result
is the list of new per-block caches; logits keep time length T. -/
def forwardShape (T : ℕ) (use_cache : Bool) (blocks_kvcache : Option (List (Option ℕ))) :
    Except Err (List (Option ℕ)) :=
  if 1 ≤ T ∧ block_size < historyLength blocks_kvcache + T then .error .posEmb
  else
    match blocks_kvcache with
    | none => .error .zipNone
    | some cs => blocksShape T use_cache n_layer cs

/-- State of the generate loop (lines 259-271): the time length of curr_idx,
the time length of idx, and the per-block caches. -/
structure GenState where
  currT : ℕ
  totalT : ℕ
  caches : List (Option ℕ)
deriving DecidableEq

/-- blocks_kvcache = [None for _ in range(n_layer)] and curr_idx = idx
(lines 259-260). -/
def genInit (T0 : ℕ) : GenState := ⟨T0, T0, List.replicate n_layer none⟩

/-- One iteration of the generate loop (lines 261-271): a cached forward
call, then logits[:, -1, :] (raising on an empty time dimension), then one
sampled token is appended and becomes the whole next input. -/
def genStepShape (st : GenState) : Except Err GenState :=
  match forwardShape st.currT true (some st.caches) with
  | .error e => .error e
  | .ok cs' => if st.currT = 0 then .error .lastIndex else .ok ⟨1, st.totalT + 1, cs'⟩

def genStepsShape : ℕ → GenState → Except Err GenState
  | 0, st => .ok st
  | n + 1, st =>
    match genStepShape st with
    | .error e => .error e
    | .ok st' => genStepsShape n st'

/-- Shape behaviour of generate (lines 251-272): the length of the returned
sequence after max_new_tokens loop iterations, or the error raised. -/
def generateShape (T0 max_new_tokens : ℕ) : Except Err ℕ :=
  match genStepsShape max_new_tokens (genInit T0) with
  | .error e => .error e
  | .ok st => .ok st.totalT

/-! ### Value-level semantics

Tensors are modelled over the reals: a [T, C] activation is a List of
C-vectors (batch dimension dropped: every operation in the source acts
batch-elementwise).  Dropout is modelled as the identity, its inference
behaviour (spec 4.1 step 5).  Floating point is modelled by exact real
arithmetic; the only infinity the source produces is the float('-inf') fill
of masked scores, modelled by Option with none for minus infinity, and
exp(-inf) = 0 exactly as in IEEE arithmetic. -/

abbrev Vec (n : ℕ) := Fin n → ℝ

/-- nn.Linear without bias (used for key/query/value projections). -/
noncomputable def linearNB {inF outF : ℕ} (w : Fin outF → Fin inF → ℝ) (x : Vec inF) :
    Vec outF :=
  fun o => ∑ i, w o i * x i

structure LinearParams (inF outF : ℕ) where
  weight : Fin outF → Fin inF → ℝ
  bias : Vec outF

/-- nn.Linear with bias. -/
noncomputable def linear {inF outF : ℕ} (p : LinearParams inF outF) (x : Vec inF) :
    Vec outF :=
  fun o => (∑ i, p.weight o i * x i) + p.bias o

/-- The scale factor n ** -0.5 applied to attention scores. -/
noncomputable def invSqrtScale (n : ℕ) : ℝ := (n : ℝ) ^ (-(1 / 2) : ℝ)

/-- exp extended to masked scores: masked_fill writes float('-inf') and
IEEE exp(-inf) = 0, so the softmax numerator of a masked entry is exactly 0. -/
noncomputable def mexp : Option ℝ → ℝ
  | none => 0
  | some r => Real.exp r

/-- F.softmax along the last dimension of an unmasked score vector. -/
noncomputable def softmaxF {n : ℕ} (s : Vec n) : Vec n :=
  fun j => Real.exp (s j) / ∑ j', Real.exp (s j')

/-- Last time-step of a list of vectors: logits[:, -1, :] (line 265). -/
def lastVec {n : ℕ} (l : List (Vec n)) : Vec n := l.getD (l.length - 1) 0

/-! #### Head (source lines 60-96), the single-head class.

This class is never instantiated by Block (which uses MultiHeadAttention),
but its score computation is part of the sources cited for C7: at line 88 it
scales by C ** -0.5 where C = x.shape[2] = n_embd, the full channel width,
not the head dimension. -/

structure HeadParams (hs : ℕ) where
  key : Fin hs → Fin n_embd → ℝ
  query : Fin hs → Fin n_embd → ℝ
  value : Fin hs → Fin n_embd → ℝ

/-- wei = q @ k.transpose(-2, -1) * (C ** -0.5) at line 88, with
C = x.shape[2] = n_embd. -/
noncomputable def headScores {hs : ℕ} (p : HeadParams hs) (xs : List (Vec n_embd))
    (i j : ℕ) : ℝ :=
  (∑ d : Fin hs, linearNB p.query (xs.getD i 0) d * linearNB p.key (xs.getD j 0) d) *
    invSqrtScale n_embd

/-- Head.forward (lines 71-96): scores, causal mask, softmax, value sum. -/
noncomputable def headForward {hs : ℕ} (p : HeadParams hs) (xs : List (Vec n_embd)) :
    List (Vec hs) :=
  let T := xs.length
  let masked : ℕ → ℕ → Option ℝ := fun i j =>
    if j ≤ i then some (headScores p xs i j) else none
  let wei : ℕ → ℕ → ℝ := fun i j =>
    mexp (masked i j) / ∑ j' ∈ Finset.range T, mexp (masked i j')
  (List.range T).map fun i d =>
    ∑ j ∈ Finset.range T, wei i j * linearNB p.value (xs.getD j 0) d

/-! #### MultiHeadAttention (source lines 98-151). -/

structure MHAParams where
  key : Fin n_embd → Fin n_embd → ℝ
  query : Fin n_embd → Fin n_embd → ℝ
  value : Fin n_embd → Fin n_embd → ℝ
  proj : LinearParams n_embd n_embd

/-- The channel of head hd, in-head dimension d, after the
[B, T, C] -> [B, T, n, h] reshape at line 128. -/
def headIndex (hd : Fin n_head) (d : Fin head_size) : Fin n_embd :=
  ⟨hd.val * head_size + d.val, by
    have h1 := hd.isLt
    have h2 := d.isLt
    have e1 : head_size = 64 := rfl
    have e2 : n_embd = 384 := rfl
    have e3 : n_head = 6 := rfl
    simp only [e1, e2, e3] at h1 h2 ⊢
    omega⟩

/-- View a C-vector as n_head vectors of head_size entries (line 128-129). -/
def toHeads (v : Vec n_embd) : Fin n_head → Vec head_size :=
  fun hd d => v (headIndex hd d)

/-- Inverse reshape [B, T, n, h] -> [B, T, C] (lines 147-148). -/
def fromHeads (f : Fin n_head → Vec head_size) : Vec n_embd :=
  fun c =>
    f ⟨c.val / head_size, by
        have hc := c.isLt
        have e1 : head_size = 64 := rfl
        have e2 : n_embd = 384 := rfl
        have e3 : n_head = 6 := rfl
        simp only [e1, e2, e3] at hc ⊢
        omega⟩
      ⟨c.val % head_size, by
        have e1 : head_size = 64 := rfl
        simp only [e1]
        omega⟩

abbrev HeadsVec := Fin n_head → Vec head_size

/-- Per-block key/value cache: the reshaped key and value tensors,
time-major. -/
abbrev KVCache := List HeadsVec × List HeadsVec

noncomputable def keysOf (p : MHAParams) (xs : List (Vec n_embd)) : List HeadsVec :=
  xs.map fun x => toHeads (linearNB p.key x)

noncomputable def valuesOf (p : MHAParams) (xs : List (Vec n_embd)) : List HeadsVec :=
  xs.map fun x => toHeads (linearNB p.value x)

noncomputable def queriesOf (p : MHAParams) (xs : List (Vec n_embd)) : List HeadsVec :=
  xs.map fun x => toHeads (linearNB p.query x)

/-- prev_k[:, :, -block_size-1:, :] (line 133): the most recent
block_size + 1 time-steps (everything when the cache is shorter, matching
the clamping of a negative Python slice). -/
def truncCache (l : List HeadsVec) : List HeadsVec :=
  l.drop (l.length - (block_size + 1))

/-- Key/value extension and cache update of lines 130-136. -/
noncomputable def mhaKV (p : MHAParams) (xs : List (Vec n_embd)) (use_cache : Bool)
    (kvcache : Option KVCache) : (List HeadsVec × List HeadsVec) × Option KVCache :=
  match use_cache, kvcache with
  | true, some pc =>
    let k := truncCache pc.1 ++ keysOf p xs
    let v := truncCache pc.2 ++ valuesOf p xs
    ((k, v), some (k, v))
  | true, none => ((keysOf p xs, valuesOf p xs), some (keysOf p xs, valuesOf p xs))
  | false, c => ((keysOf p xs, valuesOf p xs), c)

def hget (l : List HeadsVec) (i : ℕ) : HeadsVec := l.getD i (fun _ _ => 0)

/-- einsum('bnqh,bnkh->bnqk', q, k) * head_size ** -0.5 (line 138). -/
noncomputable def mhaScore (qs ks : List HeadsVec) (i : ℕ) (hd : Fin n_head) (j : ℕ) : ℝ :=
  (∑ d, hget qs i hd d * hget ks j hd d) * invSqrtScale head_size

/-- masked_fill with the sliced tril (line 140).  When K = T the sliced mask
is the T-by-T lower-triangular matrix and key positions beyond the query are
filled with -inf; otherwise the only broadcastable shape is T = 1, where the
slice is the single entry tril[0][0] = 1 and nothing is masked. -/
noncomputable def mhaMasked (T : ℕ) (qs ks : List HeadsVec) (i : ℕ) (hd : Fin n_head)
    (j : ℕ) : Option ℝ :=
  if ks.length = T then (if j ≤ i then some (mhaScore qs ks i hd j) else none)
  else some (mhaScore qs ks i hd j)

/-- F.softmax(att_wei, dim=-1) (line 143): normalisation along the key
dimension. -/
noncomputable def mhaWei (T : ℕ) (qs ks : List HeadsVec) (i : ℕ) (hd : Fin n_head)
    (j : ℕ) : ℝ :=
  mexp (mhaMasked T qs ks i hd j) /
    ∑ j' ∈ Finset.range ks.length, mexp (mhaMasked T qs ks i hd j')

/-- MultiHeadAttention.forward (lines 114-151). -/
noncomputable def mhaForward (p : MHAParams) (xs : List (Vec n_embd)) (use_cache : Bool)
    (kvcache : Option KVCache) : List (Vec n_embd) × Option KVCache :=
  let T := xs.length
  let qs := queriesOf p xs
  let r := mhaKV p xs use_cache kvcache
  let out : ℕ → Vec n_embd := fun i =>
    linear p.proj (fromHeads fun hd d =>
      ∑ j ∈ Finset.range r.1.1.length, mhaWei T qs r.1.1 i hd j * hget r.1.2 j hd d)
  ((List.range T).map out, r.2)

/-! #### FeedForward, LayerNorm, Block, language model
(source lines 153-272). -/

structure FFParams where
  w1 : LinearParams n_embd (4 * n_embd)
  w2 : LinearParams (4 * n_embd) n_embd

def relu (x : ℝ) : ℝ := max x 0

/-- FeedForward.forward (lines 153-174): expand 4x, ReLU, project back
(dropout = identity at inference). -/
noncomputable def ffForward (p : FFParams) (x : Vec n_embd) : Vec n_embd :=
  linear p.w2 fun i => relu (linear p.w1 x i)

/-- PyTorch LayerNorm default eps. -/
noncomputable def layerNormEps : ℝ := 1 / 100000

structure LNParams where
  weight : Vec n_embd
  bias : Vec n_embd

/-- nn.LayerNorm over the channel dimension with learnable affine. -/
noncomputable def layerNorm (p : LNParams) (x : Vec n_embd) : Vec n_embd :=
  let μ : ℝ := (∑ i, x i) / (n_embd : ℝ)
  let v : ℝ := (∑ i, (x i - μ) ^ 2) / (n_embd : ℝ)
  fun i => (x i - μ) / Real.sqrt (v + layerNormEps) * p.weight i + p.bias i

structure BlockParams where
  sa_heads : MHAParams
  ffwd : FFParams
  ln1 : LNParams
  ln2 : LNParams

/-- Block.forward (lines 187-201): pre-norm attention with residual, then
pre-norm feed-forward with residual. -/
noncomputable def blockForward (b : BlockParams) (xs : List (Vec n_embd))
    (use_cache : Bool) (kvcache : Option KVCache) : List (Vec n_embd) × Option KVCache :=
  let r := mhaForward b.sa_heads (xs.map (layerNorm b.ln1)) use_cache kvcache
  let xs1 := List.zipWith (· + ·) xs r.1
  (xs1.map fun x => x + ffForward b.ffwd (layerNorm b.ln2 x), r.2)

structure ModelParams (V : ℕ) where
  token_embedding_table : Fin V → Vec n_embd
  position_embedding_table : Fin block_size → Vec n_embd
  blocks : Fin n_layer → BlockParams
  ln_f : LNParams
  lm_head : LinearParams n_embd V

/-- Row i of the position-embedding table.  An index at or beyond block_size
raises IndexError in the source (modelled by forwardShape); the value-level
semantics is only applied at in-range indices, out-of-range rows read as a
junk zero vector. -/
noncomputable def posEmbAt {V : ℕ} (p : ModelParams V) (i : ℕ) : Vec n_embd :=
  if h : i < block_size then p.position_embedding_table ⟨i, h⟩ else 0

/-- tok_emb + pos_emb with positions offset by the cache history
(lines 226-230). -/
noncomputable def embSeq {V : ℕ} (p : ModelParams V) (hist : ℕ) (idx : List (Fin V)) :
    List (Vec n_embd) :=
  idx.enum.map fun ti => p.token_embedding_table ti.2 + posEmbAt p (ti.1 + hist)

/-- The loop over zip(self.blocks, blocks_kvcache) (lines 231-234). -/
noncomputable def forwardBlocks : List BlockParams → List (Option KVCache) →
    List (Vec n_embd) → Bool → List (Vec n_embd) × List (Option KVCache)
  | b :: bs, c :: cs, xs, uc =>
    let r := blockForward b xs uc c
    let rest := forwardBlocks bs cs r.1 uc
    (rest.1, r.2 :: rest.2)
  | _, _, xs, _ => (xs, [])

/-- history_length (line 227) when blocks_kvcache is an actual list. -/
def historyLengthV (caches : List (Option KVCache)) : ℕ :=
  match caches.head? with
  | some (some c) => c.1.length
  | _ => 0

/-- NanoGPTLanguageModel.forward (lines 212-249) with targets = None:
embeddings, block stack, final LayerNorm, vocabulary projection; returns the
logits and the new per-block caches. -/
noncomputable def forwardValue {V : ℕ} (p : ModelParams V) (idx : List (Fin V))
    (use_cache : Bool) (caches : List (Option KVCache)) :
    List (Vec V) × List (Option KVCache) :=
  let x := embSeq p (historyLengthV caches) idx
  let r := forwardBlocks (List.ofFn p.blocks) caches x use_cache
  (r.1.map fun v => linear p.lm_head (layerNorm p.ln_f v), r.2)

/-- One iteration of the generate loop (lines 261-271): cached forward on
curr_idx, softmax of the last-position logits, one multinomial draw
(modelled by the sampler oracle at this step index), which becomes the whole
next input. -/
noncomputable def genStepValue {V : ℕ} (p : ModelParams V) (sampler : ℕ → Vec V → Fin V)
    (k : ℕ) (st : List (Fin V) × List (Option KVCache) × List (Fin V)) :
    List (Fin V) × List (Option KVCache) × List (Fin V) :=
  let r := forwardValue p st.1 true st.2.1
  let nxt := sampler k (softmaxF (lastVec r.1))
  ([nxt], r.2, st.2.2 ++ [nxt])

noncomputable def genIterValue {V : ℕ} (p : ModelParams V) (sampler : ℕ → Vec V → Fin V) :
    ℕ → ℕ → List (Fin V) × List (Option KVCache) × List (Fin V) →
    List (Fin V) × List (Option KVCache) × List (Fin V)
  | 0, _, st => st
  | n + 1, k, st => genIterValue p sampler n (k + 1) (genStepValue p sampler k st)

/-- NanoGPTLanguageModel.generate (lines 251-272). -/
noncomputable def generateValue {V : ℕ} (p : ModelParams V) (idx : List (Fin V))
    (max_new_tokens : ℕ) (sampler : ℕ → Vec V → Fin V) : List (Fin V) :=
  (genIterValue p sampler max_new_tokens 0 (idx, List.replicate n_layer none, idx)).2.2

/-- Modelled from the spec: the full, non-cached forward pass over a whole
sequence (the reference semantics of C4's cache-equivalence property).  It
is the working non-cached invocation of forward: use_cache = False and one
empty cache slot per block. -/
noncomputable def fullLogits {V : ℕ} (p : ModelParams V) (seq : List (Fin V)) :
    List (Vec V) :=
  (forwardValue p seq false (List.replicate n_layer none)).1

/-- Modelled from the spec: reference generation that recomputes the full
forward pass over the whole growing sequence at each step and takes the same
sampled draw at each position. -/
noncomputable def specSeq {V : ℕ} (p : ModelParams V) (sampler : ℕ → Vec V → Fin V)
    (idx : List (Fin V)) : ℕ → List (Fin V)
  | 0 => idx
  | k + 1 =>
    specSeq p sampler idx k ++
      [sampler k (softmaxF (lastVec (fullLogits p (specSeq p sampler idx k))))]

/-- The attention output at query index i of a non-cached
MultiHeadAttention.forward call on input l. -/
noncomputable def ncOut (p : MHAParams) (l : List (Vec n_embd)) (i : ℕ) : Vec n_embd :=
  linear p.proj (fromHeads fun hd d =>
    ∑ j ∈ Finset.range (keysOf p l).length,
      mhaWei l.length (queriesOf p l) (keysOf p l) i hd j * hget (valuesOf p l) j hd d)

/-- The layer stack of a non-cached forward pass (each block paired with an
absent cache). -/
noncomputable def ncBlocks : List BlockParams → List (Vec n_embd) → List (Vec n_embd)
  | [], xs => xs
  | b :: bs, xs => ncBlocks bs ((blockForward b xs false none).1)

/-- The key/value cache contents a block builds for an already-processed
input: the projections of its normalised input (the state the generate loop
carries between steps). -/
noncomputable def blockCache (b : BlockParams) (xs : List (Vec n_embd)) : KVCache :=
  (keysOf b.sa_heads (xs.map (layerNorm b.ln1)),
    valuesOf b.sa_heads (xs.map (layerNorm b.ln1)))

/-- The per-block caches left behind by running a full sequence through the
layer stack in caching mode. -/
noncomputable def cachesFor : List BlockParams → List (Vec n_embd) → List (Option KVCache)
  | [], _ => []
  | b :: bs, xs => some (blockCache b xs) :: cachesFor bs ((blockForward b xs false none).1)

/-! ### Concrete instances used by counterexamples and witnesses -/

def finZero : Fin n_embd := ⟨0, by norm_num [n_embd]⟩

/-- A one-hot channel vector. -/
noncomputable def e0vec : Vec n_embd := fun c => if c = finZero then 1 else 0

/-- A Head instance whose projections are all-ones matrices. -/
noncomputable def onesHead : HeadParams head_size :=
  ⟨fun _ _ => 1, fun _ _ => 1, fun _ _ => 1⟩

noncomputable def zeroLin (a b : ℕ) : LinearParams a b := ⟨fun _ _ => 0, fun _ => 0⟩

noncomputable def zeroMHA : MHAParams :=
  ⟨fun _ _ => 0, fun _ _ => 0, fun _ _ => 0, zeroLin n_embd n_embd⟩

noncomputable def zeroFF : FFParams :=
  ⟨zeroLin n_embd (4 * n_embd), zeroLin (4 * n_embd) n_embd⟩

noncomputable def unitLN : LNParams := ⟨fun _ => 1, fun _ => 0⟩

noncomputable def zeroBlock : BlockParams := ⟨zeroMHA, zeroFF, unitLN, unitLN⟩

noncomputable def zeroModel : ModelParams 1 :=
  ⟨fun _ _ => 0, fun _ _ => 0, fun _ => zeroBlock, unitLN, zeroLin n_embd 1⟩

def constSampler : ℕ → Vec 1 → Fin 1 := fun _ _ => 0

def promptW : List (Fin 1) := [0]

noncomputable def xsA : List (Vec n_embd) := [0, 0]

noncomputable def xsB : List (Vec n_embd) := [0, e0vec]

def sigA : List (Fin 1) := [0, 0]

lemma mem_chars_iff (text : List Char) (c : Char) : c ∈ chars text ↔ c ∈ text := by
  unfold chars
  rw [(List.perm_insertionSort (· ≤ ·) text.dedup).mem_iff, List.mem_dedup]

lemma itos_stoi (text : List Char) (c : Char) (hc : c ∈ text) :
    stoi text c = some (List.indexOf c (chars text)) ∧
      itos text (List.indexOf c (chars text)) = some c := by
  have hmem : c ∈ chars text := (mem_chars_iff text c).2 hc
  refine ⟨by simp [stoi, hmem], ?_⟩
  simpa [itos] using List.indexOf_get? hmem

/-- C5: for every string composed solely of characters occurring in the
training corpus, decoding the encoding gives back the string. -/
theorem decode_encode_roundtrip (text s : List Char) (h : ∀ c ∈ s, c ∈ text) :
    (encode text s).bind (decode text) = some s := by
  induction s with
  | nil => simp [encode, decode]
  | cons c rest ih =>
    have hc := itos_stoi text c (h c (List.mem_cons_self c rest))
    have hrest := ih (fun x hx => h x (List.mem_cons_of_mem c hx))
    rw [encode, hc.1]
    cases henc : encode text rest with
    | none => rw [henc] at hrest; simp at hrest
    | some ids =>
      rw [henc] at hrest
      simp only [Option.bind_eq_bind, Option.some_bind] at hrest ⊢
      rw [decode, hc.2, hrest]

/-- C5 witness. -/
theorem decode_encode_roundtrip_witness :
    (∀ c ∈ [('b' : Char), 'a', 'b'], c ∈ [('a' : Char), 'b', 'c']) ∧
      (encode [('a' : Char), 'b', 'c'] [('b' : Char), 'a', 'b']).bind
          (decode [('a' : Char), 'b', 'c']) = some [('b' : Char), 'a', 'b'] :=
  ⟨by decide, decode_encode_roundtrip _ _ (by decide)⟩

/-- C6: encoding a string containing a character absent from the vocabulary
fails for the whole call (the KeyError aborts the list comprehension); no
partial or substituted encoding is returned. -/
theorem encode_fails_on_unknown_char (text s : List Char)
    (h : ∃ c ∈ s, c ∉ text) : encode text s = none := by
  induction s with
  | nil => simp at h
  | cons c rest ih =>
    obtain ⟨x, hx, hnotin⟩ := h
    rcases List.mem_cons.1 hx with rfl | hxr
    · have : stoi text x = none := by
        simp [stoi, (mem_chars_iff text x).not.2 hnotin]
      rw [encode, this]
    · rw [encode, ih ⟨x, hxr, hnotin⟩]
      cases stoi text c <;> rfl

/-- C6 witness. -/
theorem encode_fails_on_unknown_char_witness :
    (∃ c ∈ [('a' : Char), 'z'], c ∉ [('a' : Char), 'b', 'c']) ∧
      encode [('a' : Char), 'b', 'c'] [('a' : Char), 'z'] = none :=
  ⟨by decide, encode_fails_on_unknown_char _ _ (by decide)⟩

/-! ### Shape-level facts -/

/-- C1: the claim says the default-argument training call returns logits and
a loss; in fact blocks_kvcache defaults to None so the loop header
zip(self.blocks, blocks_kvcache) at line 232 raises TypeError before any
block runs, for instance on the [B, block_size] batches the training loop
itself feeds at line 291.  The position check passes (history 0,
indices 0..block_size-1), then the zip raises. -/
theorem forward_default_kvcache_type_error :
    forwardShape block_size false none = Except.error Err.zipNone := rfl

lemma blocksShape_replicate_none (n T : ℕ) (hT : T ≤ block_size) :
    blocksShape T true n (List.replicate n none) = .ok (List.replicate n (some T)) := by
  have hm : maskOk T T := ⟨Or.inl (min_eq_left hT), Or.inl (min_eq_left hT)⟩
  induction n with
  | zero => rfl
  | succ n ih =>
    rw [List.replicate_succ, List.replicate_succ]
    simp only [blocksShape, blockShape, mhaShape, mhaShapeKV, if_pos hm, ih]

lemma blocksShape_replicate_some (n h : ℕ) (hh : h ≤ block_size) :
    blocksShape 1 true n (List.replicate n (some h)) =
      .ok (List.replicate n (some (h + 1))) := by
  have htr : truncLen h = h := min_eq_left (le_trans hh (Nat.le_succ _))
  have hmin : min 1 block_size = 1 := min_eq_left (by norm_num [block_size])
  have hm : maskOk 1 (h + 1) := ⟨Or.inl hmin, Or.inr hmin⟩
  induction n with
  | zero => rfl
  | succ n ih =>
    rw [List.replicate_succ, List.replicate_succ]
    simp only [blocksShape, blockShape, mhaShape, mhaShapeKV, htr, if_pos hm, ih]

lemma historyLength_replicate_some (n h : ℕ) (hn : 0 < n) :
    historyLength (some (List.replicate n (some h))) = h := by
  obtain ⟨m, rfl⟩ := Nat.exists_eq_succ_of_ne_zero (Nat.pos_iff_ne_zero.1 hn)
  rw [List.replicate_succ]
  rfl

lemma genStepShape_running (h tot : ℕ) (hh : h ≤ block_size) :
    genStepShape ⟨1, tot, List.replicate n_layer (some h)⟩ =
      if h + 1 ≤ block_size then .ok ⟨1, tot + 1, List.replicate n_layer (some (h + 1))⟩
      else .error .posEmb := by
  have hhist : historyLength (some (List.replicate n_layer (some h))) = h :=
    historyLength_replicate_some _ _ (by norm_num [n_layer])
  by_cases hc : h + 1 ≤ block_size
  · rw [if_pos hc]
    have hcond : ¬(1 ≤ 1 ∧ block_size < historyLength (some (List.replicate n_layer (some h))) + 1) := by
      rw [hhist]; omega
    simp only [genStepShape, forwardShape, if_neg hcond,
      blocksShape_replicate_some n_layer h hh, if_neg (one_ne_zero)]
  · rw [if_neg hc]
    have hcond : 1 ≤ 1 ∧ block_size < historyLength (some (List.replicate n_layer (some h))) + 1 := by
      rw [hhist]; omega
    simp only [genStepShape, forwardShape, if_pos hcond]

lemma genStepsShape_running (n : ℕ) : ∀ h tot : ℕ, h ≤ block_size →
    genStepsShape n ⟨1, tot, List.replicate n_layer (some h)⟩ =
      if h + n ≤ block_size then .ok ⟨1, tot + n, List.replicate n_layer (some (h + n))⟩
      else .error .posEmb := by
  induction n with
  | zero => intro h tot hh; simp [genStepsShape, if_pos hh]
  | succ n ih =>
    intro h tot hh
    rw [genStepsShape, genStepShape_running h tot hh]
    by_cases hc : h + 1 ≤ block_size
    · rw [if_pos hc]
      dsimp only
      rw [ih (h + 1) (tot + 1) hc]
      have e1 : h + 1 + n = h + (n + 1) := by omega
      have e2 : tot + 1 + n = tot + (n + 1) := by omega
      rw [e1, e2]
    · rw [if_neg hc, if_neg (by omega)]

lemma genStepShape_init (T0 : ℕ) (h1 : 1 ≤ T0) :
    genStepShape (genInit T0) =
      if T0 ≤ block_size then .ok ⟨1, T0 + 1, List.replicate n_layer (some T0)⟩
      else .error .posEmb := by
  have hhist : historyLength (some (List.replicate n_layer none)) = 0 := by
    norm_num [n_layer, List.replicate_succ, historyLength]
  by_cases hc : T0 ≤ block_size
  · rw [if_pos hc]
    have hcond : ¬(1 ≤ T0 ∧ block_size < historyLength (some (List.replicate n_layer none)) + T0) := by
      rw [hhist]; omega
    simp only [genInit, genStepShape, forwardShape, if_neg hcond,
      blocksShape_replicate_none n_layer T0 hc, if_neg (by omega : ¬T0 = 0)]
  · rw [if_neg hc]
    have hcond : 1 ≤ T0 ∧ block_size < historyLength (some (List.replicate n_layer none)) + T0 := by
      rw [hhist]; omega
    simp only [genInit, genStepShape, forwardShape, if_pos hcond]

lemma generateShape_ok (T0 N : ℕ) (h1 : 1 ≤ T0) (h2 : T0 + N ≤ block_size + 1) :
    generateShape T0 N = .ok (T0 + N) := by
  cases N with
  | zero => simp [generateShape, genStepsShape, genInit]
  | succ n =>
    rw [generateShape, genStepsShape, genStepShape_init T0 h1,
      if_pos (by omega : T0 ≤ block_size)]
    dsimp only
    rw [genStepsShape_running n T0 (T0 + 1) (by omega),
      if_pos (by omega : T0 + n ≤ block_size)]
    dsimp only
    congr 1
    omega

lemma generateShape_err (T0 N : ℕ) (h1 : 1 ≤ T0) (hN : 1 ≤ N)
    (h2 : block_size + 1 < T0 + N) : generateShape T0 N = .error .posEmb := by
  cases N with
  | zero => omega
  | succ n =>
    by_cases hT : T0 ≤ block_size
    · rw [generateShape, genStepsShape, genStepShape_init T0 h1, if_pos hT]
      dsimp only
      rw [genStepsShape_running n T0 (T0 + 1) (by omega),
        if_neg (by omega : ¬T0 + n ≤ block_size)]
    · rw [generateShape, genStepsShape, genStepShape_init T0 h1, if_neg hT]

/-- C2: in every generation run, after any number of completed generation
steps, every per-block key/value cache holds at most block_size time-steps.
This bound is enforced not by the truncation at line 133 (which keeps
block_size + 1 entries and never actually drops anything on a reachable
cache) but by the position-embedding lookup at line 228 failing before any
forward call that would push a cache past block_size. -/
theorem cache_length_le_block_size (T0 k : ℕ) (st : GenState)
    (hrun : genStepsShape k (genInit T0) = .ok st) :
    ∀ c ∈ st.caches, ∀ h, c = some h → h ≤ block_size := by
  intro c hc h hch
  cases k with
  | zero =>
    simp only [genStepsShape, Except.ok.injEq] at hrun
    subst hrun
    have := List.eq_of_mem_replicate hc
    simp [this] at hch
  | succ n =>
    cases T0 with
    | zero =>
      have hz : genStepShape (genInit 0) = .error .lastIndex := rfl
      rw [genStepsShape, hz] at hrun
      exact absurd hrun (by simp)
    | succ t =>
      rw [genStepsShape, genStepShape_init (t + 1) (by omega)] at hrun
      by_cases hT : t + 1 ≤ block_size
      · rw [if_pos hT] at hrun
        dsimp only at hrun
        rw [genStepsShape_running n (t + 1) (t + 1 + 1) hT] at hrun
        by_cases hc2 : t + 1 + n ≤ block_size
        · rw [if_pos hc2] at hrun
          simp only [Except.ok.injEq] at hrun
          subst hrun
          have := List.eq_of_mem_replicate hc
          rw [this] at hch
          simp only [Option.some.injEq] at hch
          omega
        · rw [if_neg hc2] at hrun
          exact absurd hrun (by simp)
      · rw [if_neg hT] at hrun
        exact absurd hrun (by simp)

/-- C2 witness: a concrete two-token prompt run for one step. -/
theorem cache_length_le_block_size_witness :
    genStepsShape 1 (genInit 2) = .ok ⟨1, 3, List.replicate n_layer (some 2)⟩ ∧
      2 ≤ block_size :=
  ⟨rfl, cache_length_le_block_size 2 1 ⟨1, 3, List.replicate n_layer (some 2)⟩ rfl
    (some 2) (by decide) 2 rfl⟩

/-- C10 counterexample: the claim says generation fails once the cached
history plus the new tokens reaches context_length total positions, so the
model cannot generate past context_length total positions.  In fact a
one-token prompt plus block_size generated tokens succeeds and returns
block_size + 1 total positions: the final sampled token needs no further
forward pass, and every lookup stays at index at most block_size - 1. -/
theorem generate_past_context_length_cex :
    generateShape 1 block_size = Except.ok (block_size + 1) :=
  generateShape_ok 1 block_size (by norm_num) (by omega)

/-- C10 (amended): generation fails with an out-of-range position-embedding
lookup exactly when some forward call needs a position index of at least
block_size, i.e. as soon as prompt length + generated tokens exceeds
block_size + 1; up to that bound it succeeds with the full length. -/
theorem generate_posEmb_boundary (T0 N : ℕ) (h1 : 1 ≤ T0) :
    (T0 + N ≤ block_size + 1 → generateShape T0 N = .ok (T0 + N)) ∧
      (1 ≤ N → block_size + 1 < T0 + N → generateShape T0 N = .error Err.posEmb) :=
  ⟨generateShape_ok T0 N h1, fun hN h2 => generateShape_err T0 N h1 hN h2⟩

/-- C10 witness: both sides of the boundary at a one-token prompt. -/
theorem generate_posEmb_boundary_witness :
    (1 : ℕ) ≤ 1 ∧ generateShape 1 256 = .ok 257 ∧
      generateShape 1 257 = .error Err.posEmb :=
  ⟨le_refl 1, (generate_posEmb_boundary 1 256 (le_refl 1)).1 (by norm_num [block_size]),
    (generate_posEmb_boundary 1 257 (le_refl 1)).2 (by norm_num) (by norm_num [block_size])⟩

/-- C9 counterexample: the claim promises a returned sequence of length
T + N for every prompt length T and every max_new_tokens N; with T = 1 and
N = block_size + 1 the generate loop instead raises an out-of-range
position-embedding lookup at its last iteration. -/
theorem generate_length_cex :
    generateShape 1 (block_size + 1) = Except.error Err.posEmb :=
  generateShape_err 1 (block_size + 1) (le_refl 1) (by omega) (by omega)

/-! ### List access helpers -/

lemma getD_map_of_lt {α β : Type _} (f : α → β) (l : List α) (i : ℕ) (h : i < l.length)
    (d : β) (d' : α) : (l.map f).getD i d = f (l.getD i d') := by
  simp [List.getD_eq_getElem?_getD, List.getElem?_eq_getElem h,
    List.getElem?_map]

lemma getD_take_of_lt {α : Type _} (l : List α) (m i : ℕ) (h : i < m) (d : α) :
    (l.take m).getD i d = l.getD i d := by
  simp [List.getD_eq_getElem?_getD, List.getElem?_take, h]

lemma getD_eq_of_take_eq {α : Type _} (l₁ l₂ : List α) (m i : ℕ) (h : i < m)
    (he : l₁.take m = l₂.take m) (d : α) : l₁.getD i d = l₂.getD i d := by
  rw [← getD_take_of_lt l₁ m i h d, he, getD_take_of_lt l₂ m i h d]

lemma getD_drop {α : Type _} (l : List α) (m i : ℕ) (d : α) :
    (l.drop m).getD i d = l.getD (m + i) d := by
  simp [List.getD_eq_getElem?_getD, List.getElem?_drop]

lemma getD_append_left {α : Type _} (l₁ l₂ : List α) (i : ℕ) (h : i < l₁.length) (d : α) :
    (l₁ ++ l₂).getD i d = l₁.getD i d := by
  simp [List.getD_eq_getElem?_getD, List.getElem?_append_left h]

/-! ### Length and access facts for the value-level semantics -/

@[simp] lemma keysOf_length (p : MHAParams) (xs : List (Vec n_embd)) :
    (keysOf p xs).length = xs.length := by simp [keysOf]

@[simp] lemma valuesOf_length (p : MHAParams) (xs : List (Vec n_embd)) :
    (valuesOf p xs).length = xs.length := by simp [valuesOf]

@[simp] lemma queriesOf_length (p : MHAParams) (xs : List (Vec n_embd)) :
    (queriesOf p xs).length = xs.length := by simp [queriesOf]

lemma keysOf_append (p : MHAParams) (l₁ l₂ : List (Vec n_embd)) :
    keysOf p (l₁ ++ l₂) = keysOf p l₁ ++ keysOf p l₂ := by simp [keysOf]

lemma valuesOf_append (p : MHAParams) (l₁ l₂ : List (Vec n_embd)) :
    valuesOf p (l₁ ++ l₂) = valuesOf p l₁ ++ valuesOf p l₂ := by simp [valuesOf]

lemma truncCache_of_le (l : List HeadsVec) (h : l.length ≤ block_size + 1) :
    truncCache l = l := by
  unfold truncCache
  rw [Nat.sub_eq_zero_of_le h, List.drop_zero]

lemma mhaForward_false (p : MHAParams) (l : List (Vec n_embd)) (c : Option KVCache) :
    mhaForward p l false c = ((List.range l.length).map (ncOut p l), c) := rfl

@[simp] lemma mhaForward_fst_length (p : MHAParams) (l : List (Vec n_embd)) (uc : Bool)
    (c : Option KVCache) : ((mhaForward p l uc c).1).length = l.length := by
  cases uc <;> cases c <;> simp [mhaForward]

@[simp] lemma blockForward_fst_length (b : BlockParams) (l : List (Vec n_embd)) (uc : Bool)
    (c : Option KVCache) : ((blockForward b l uc c).1).length = l.length := by
  simp [blockForward]

/-! ### Attention row lemmas: masked weights vanish beyond the query
position, and rows only depend on the prefix up to the query. -/

lemma mhaMasked_some_of_le (T : ℕ) (qs ks : List HeadsVec) (i : ℕ) (hd : Fin n_head)
    (j : ℕ) (hlen : ks.length = T) (hj : j ≤ i) :
    mhaMasked T qs ks i hd j = some (mhaScore qs ks i hd j) := by
  unfold mhaMasked
  rw [if_pos hlen, if_pos hj]

lemma mhaMasked_single (qs ks : List HeadsVec) (hd : Fin n_head) (j : ℕ)
    (hj : j < ks.length) : mhaMasked 1 qs ks 0 hd j = some (mhaScore qs ks 0 hd j) := by
  unfold mhaMasked
  by_cases h : ks.length = 1
  · rw [if_pos h, if_pos (by omega : j ≤ 0)]
  · rw [if_neg h]

lemma mhaWei_zero_of_gt (T : ℕ) (qs ks : List HeadsVec) (i j : ℕ) (hd : Fin n_head)
    (hlen : ks.length = T) (hj : i < j) : mhaWei T qs ks i hd j = 0 := by
  unfold mhaWei mhaMasked
  rw [if_pos hlen, if_neg (by omega : ¬j ≤ i)]
  simp [mexp]

lemma mhaScore_congr (qs₁ ks₁ qs₂ ks₂ : List HeadsVec) (i₁ j₁ i₂ j₂ : ℕ) (hd : Fin n_head)
    (hq : hget qs₁ i₁ = hget qs₂ i₂) (hk : hget ks₁ j₁ = hget ks₂ j₂) :
    mhaScore qs₁ ks₁ i₁ hd j₁ = mhaScore qs₂ ks₂ i₂ hd j₂ := by
  unfold mhaScore
  rw [hq, hk]

lemma maskedDenom (T : ℕ) (qs ks : List HeadsVec) (i : ℕ) (hd : Fin n_head)
    (hlen : ks.length = T) (hi : i < T) :
    ∑ j' ∈ Finset.range ks.length, mexp (mhaMasked T qs ks i hd j') =
      ∑ j' ∈ Finset.range (i + 1), Real.exp (mhaScore qs ks i hd j') := by
  rw [← Finset.sum_subset (Finset.range_subset.mpr (by omega : i + 1 ≤ ks.length))
    (fun x hx hnx => by
      have hgt : i < x := by
        simp only [Finset.mem_range] at hx hnx
        omega
      unfold mhaMasked
      rw [if_pos hlen, if_neg (by omega : ¬x ≤ i)]
      simp [mexp])]
  exact Finset.sum_congr rfl fun j hj => by
    rw [mhaMasked_some_of_le T qs ks i hd j hlen
      (by simp only [Finset.mem_range] at hj; omega)]
    rfl

lemma attSum_restrict (T : ℕ) (qs ks vs : List HeadsVec) (i : ℕ) (hd : Fin n_head)
    (d : Fin head_size) (hlen : ks.length = T) (hi : i < T) :
    ∑ j ∈ Finset.range ks.length, mhaWei T qs ks i hd j * hget vs j hd d =
      ∑ j ∈ Finset.range (i + 1), mhaWei T qs ks i hd j * hget vs j hd d := by
  symm
  apply Finset.sum_subset (Finset.range_subset.mpr (by omega : i + 1 ≤ ks.length))
  intro x hx hnx
  have hgt : i < x := by
    simp only [Finset.mem_range] at hx hnx
    omega
  rw [mhaWei_zero_of_gt T qs ks i x hd hlen hgt, zero_mul]

lemma mhaWei_eq_of_le (T : ℕ) (qs ks : List HeadsVec) (i : ℕ) (hd : Fin n_head) (j : ℕ)
    (hlen : ks.length = T) (hi : i < T) (hj : j ≤ i) :
    mhaWei T qs ks i hd j =
      Real.exp (mhaScore qs ks i hd j) /
        ∑ j' ∈ Finset.range (i + 1), Real.exp (mhaScore qs ks i hd j') := by
  unfold mhaWei
  rw [mhaMasked_some_of_le T qs ks i hd j hlen hj, maskedDenom T qs ks i hd hlen hi]
  rfl

lemma hget_map_proj (w : Fin n_embd → Fin n_embd → ℝ) (l : List (Vec n_embd)) (j : ℕ)
    (hj : j < l.length) :
    hget (l.map fun x => toHeads (linearNB w x)) j = toHeads (linearNB w (l.getD j 0)) := by
  unfold hget
  rw [getD_map_of_lt _ _ _ hj _ 0]

/-- The attention output row at position i of a non-cached forward pass
depends only on the input entries at positions at most i. -/
lemma ncOut_eq_of_prefix (p : MHAParams) (l₁ l₂ : List (Vec n_embd)) (i : ℕ)
    (hi₁ : i < l₁.length) (hi₂ : i < l₂.length)
    (hpre : ∀ j, j ≤ i → l₁.getD j 0 = l₂.getD j 0) :
    ncOut p l₁ i = ncOut p l₂ i := by
  have hq : ∀ j, j ≤ i → hget (queriesOf p l₁) j = hget (queriesOf p l₂) j := by
    intro j hj
    unfold queriesOf
    rw [hget_map_proj _ _ _ (lt_of_le_of_lt hj hi₁),
      hget_map_proj _ _ _ (lt_of_le_of_lt hj hi₂), hpre j hj]
  have hk : ∀ j, j ≤ i → hget (keysOf p l₁) j = hget (keysOf p l₂) j := by
    intro j hj
    unfold keysOf
    rw [hget_map_proj _ _ _ (lt_of_le_of_lt hj hi₁),
      hget_map_proj _ _ _ (lt_of_le_of_lt hj hi₂), hpre j hj]
  have hv : ∀ j, j ≤ i → hget (valuesOf p l₁) j = hget (valuesOf p l₂) j := by
    intro j hj
    unfold valuesOf
    rw [hget_map_proj _ _ _ (lt_of_le_of_lt hj hi₁),
      hget_map_proj _ _ _ (lt_of_le_of_lt hj hi₂), hpre j hj]
  have hsc : ∀ (hd : Fin n_head) (j : ℕ), j ≤ i →
      mhaScore (queriesOf p l₁) (keysOf p l₁) i hd j =
        mhaScore (queriesOf p l₂) (keysOf p l₂) i hd j := fun hd j hj =>
    mhaScore_congr _ _ _ _ i j i j hd (hq i le_rfl) (hk j hj)
  unfold ncOut
  apply congrArg
  apply congrArg
  funext hd d
  rw [attSum_restrict l₁.length _ _ _ i hd d (keysOf_length p l₁) hi₁,
    attSum_restrict l₂.length _ _ _ i hd d (keysOf_length p l₂) hi₂]
  apply Finset.sum_congr rfl
  intro j hj
  have hj' : j ≤ i := by simp only [Finset.mem_range] at hj; omega
  rw [mhaWei_eq_of_le l₁.length _ _ i hd j (keysOf_length p l₁) hi₁ hj',
    mhaWei_eq_of_le l₂.length _ _ i hd j (keysOf_length p l₂) hi₂ hj',
    hsc hd j hj', hv j hj',
    Finset.sum_congr rfl fun j' hj'' => by
      rw [hsc hd j' (by simp only [Finset.mem_range] at hj''; omega)]]

/-! ### Non-cached forward passes commute with taking prefixes
(causality of the masked attention). -/

lemma mhaForward_take (p : MHAParams) (xs : List (Vec n_embd)) (m : ℕ) :
    (mhaForward p (xs.take m) false none).1 = ((mhaForward p xs false none).1).take m := by
  rw [mhaForward_false, mhaForward_false]
  simp only [List.length_take]
  rw [← List.map_take, List.take_range]
  apply List.map_congr_left
  intro a ha
  have ham : a < min m xs.length := List.mem_range.1 ha
  exact ncOut_eq_of_prefix p (xs.take m) xs a
    (by simp only [List.length_take]; omega) (by omega)
    (fun j hj => getD_take_of_lt xs m j (by omega) 0)

lemma blockForward_take (b : BlockParams) (xs : List (Vec n_embd)) (m : ℕ) :
    (blockForward b (xs.take m) false none).1 = ((blockForward b xs false none).1).take m := by
  simp only [blockForward]
  rw [List.map_take, mhaForward_take, ← List.take_zipWith, List.map_take]

@[simp] lemma ncBlocks_length (bs : List BlockParams) :
    ∀ xs : List (Vec n_embd), (ncBlocks bs xs).length = xs.length := by
  induction bs with
  | nil => intro xs; rfl
  | cons b bs ih =>
    intro xs
    rw [ncBlocks, ih, blockForward_fst_length]

lemma ncBlocks_take (bs : List BlockParams) :
    ∀ (xs : List (Vec n_embd)) (m : ℕ),
      ncBlocks bs (xs.take m) = (ncBlocks bs xs).take m := by
  induction bs with
  | nil => intro xs m; rfl
  | cons b bs ih =>
    intro xs m
    rw [ncBlocks, ncBlocks, blockForward_take, ih]

lemma blockForward_false_snd (b : BlockParams) (xs : List (Vec n_embd))
    (c : Option KVCache) : (blockForward b xs false c).2 = c := rfl

lemma forwardBlocks_none (bs : List BlockParams) :
    ∀ xs : List (Vec n_embd),
      forwardBlocks bs (List.replicate bs.length none) xs false =
        (ncBlocks bs xs, List.replicate bs.length none) := by
  induction bs with
  | nil => intro xs; rfl
  | cons b bs ih =>
    intro xs
    rw [List.length_cons, List.replicate_succ, forwardBlocks, ih, ncBlocks,
      blockForward_false_snd]

/-! ### Embedding-sequence access lemmas -/

lemma embSeq_getElem? {V : ℕ} (p : ModelParams V) (h : ℕ) (idx : List (Fin V)) (i : ℕ) :
    (embSeq p h idx)[i]? =
      idx[i]?.map fun tok => p.token_embedding_table tok + posEmbAt p (i + h) := by
  simp [embSeq, List.getElem?_enum]
  cases idx[i]? <;> simp

@[simp] lemma embSeq_length {V : ℕ} (p : ModelParams V) (h : ℕ) (idx : List (Fin V)) :
    (embSeq p h idx).length = idx.length := by
  simp [embSeq]

lemma embSeq_take {V : ℕ} (p : ModelParams V) (m : ℕ) (idx : List (Fin V)) :
    embSeq p 0 (idx.take m) = (embSeq p 0 idx).take m := by
  apply List.ext_getElem?
  intro i
  rw [embSeq_getElem?, List.getElem?_take, List.getElem?_take, embSeq_getElem?]
  by_cases hi : i < m
  · rw [if_pos hi, if_pos hi]
  · rw [if_neg hi, if_neg hi]
    rfl

lemma embSeq_drop {V : ℕ} (p : ModelParams V) (h m : ℕ) (idx : List (Fin V)) :
    (embSeq p h idx).drop m = embSeq p (h + m) (idx.drop m) := by
  apply List.ext_getElem?
  intro i
  rw [List.getElem?_drop, embSeq_getElem?, embSeq_getElem?, List.getElem?_drop]
  have : i + (h + m) = m + i + h := by omega
  rw [this]

/-! ### Full-pass logits -/

lemma historyLengthV_replicate (n : ℕ) :
    historyLengthV (List.replicate n none) = 0 := by
  cases n with
  | zero => rfl
  | succ n => rw [List.replicate_succ]; rfl

lemma fullLogits_eq {V : ℕ} (p : ModelParams V) (σ : List (Fin V)) :
    fullLogits p σ =
      (ncBlocks (List.ofFn p.blocks) (embSeq p 0 σ)).map
        fun v => linear p.lm_head (layerNorm p.ln_f v) := by
  unfold fullLogits forwardValue
  have hrep : (List.replicate n_layer (none : Option KVCache)) =
      List.replicate (List.ofFn p.blocks).length none := by
    rw [List.length_ofFn]
  dsimp only
  rw [historyLengthV_replicate, hrep, forwardBlocks_none]

@[simp] lemma fullLogits_length {V : ℕ} (p : ModelParams V) (σ : List (Fin V)) :
    (fullLogits p σ).length = σ.length := by
  rw [fullLogits_eq]
  simp

lemma fullLogits_take {V : ℕ} (p : ModelParams V) (m : ℕ) (σ : List (Fin V)) :
    fullLogits p (σ.take m) = (fullLogits p σ).take m := by
  rw [fullLogits_eq, fullLogits_eq, embSeq_take, ncBlocks_take, List.map_take]

lemma getD_range (n t : ℕ) (h : t < n) : (List.range n).getD t 0 = t := by
  rw [List.getD_eq_getElem?_getD, List.getElem?_range h]
  rfl

/-- C3: if two attention inputs agree at all positions up to t, the
non-cached attention output at position t is identical, and if two token
sequences agree at all positions up to t, the full-pass logits at position t
are identical: the causal mask admits no future leakage. -/
theorem attention_causality {V : ℕ} (p : MHAParams) (mp : ModelParams V)
    (xs₁ xs₂ : List (Vec n_embd)) (σ₁ σ₂ : List (Fin V)) (t : ℕ)
    (hx₁ : t < xs₁.length) (hx₂ : t < xs₂.length)
    (hxpre : xs₁.take (t + 1) = xs₂.take (t + 1))
    (hs₁ : t < σ₁.length) (hs₂ : t < σ₂.length)
    (hspre : σ₁.take (t + 1) = σ₂.take (t + 1)) :
    ((mhaForward p xs₁ false none).1).getD t 0 =
        ((mhaForward p xs₂ false none).1).getD t 0 ∧
      (fullLogits mp σ₁).getD t 0 = (fullLogits mp σ₂).getD t 0 := by
  constructor
  · have h1 : (mhaForward p xs₁ false none).1 =
        (List.range xs₁.length).map (ncOut p xs₁) := by rw [mhaForward_false]
    have h2 : (mhaForward p xs₂ false none).1 =
        (List.range xs₂.length).map (ncOut p xs₂) := by rw [mhaForward_false]
    rw [h1, h2,
      getD_map_of_lt _ _ t (by simpa using hx₁) _ 0,
      getD_map_of_lt _ _ t (by simpa using hx₂) _ 0,
      getD_range _ _ hx₁, getD_range _ _ hx₂]
    exact ncOut_eq_of_prefix p xs₁ xs₂ t hx₁ hx₂
      (fun j hj => getD_eq_of_take_eq xs₁ xs₂ (t + 1) j (by omega) hxpre 0)
  · have h := fullLogits_take mp (t + 1) σ₁
    rw [hspre, fullLogits_take mp (t + 1) σ₂] at h
    exact getD_eq_of_take_eq (fullLogits mp σ₁) (fullLogits mp σ₂) (t + 1) t
      (by omega) h.symm 0

/-! ### Cached single-step forward agrees with the corresponding row of the
full non-cached pass. -/

lemma mhaForward_true_some (p : MHAParams) (xs : List (Vec n_embd))
    (pk pv : List HeadsVec) :
    mhaForward p xs true (some (pk, pv)) =
      ((List.range xs.length).map fun i =>
          linear p.proj (fromHeads fun hd d =>
            ∑ j ∈ Finset.range (truncCache pk ++ keysOf p xs).length,
              mhaWei xs.length (queriesOf p xs) (truncCache pk ++ keysOf p xs) i hd j *
                hget (truncCache pv ++ valuesOf p xs) j hd d),
        some (truncCache pk ++ keysOf p xs, truncCache pv ++ valuesOf p xs)) := rfl

lemma mhaForward_true_none (p : MHAParams) (xs : List (Vec n_embd)) :
    mhaForward p xs true none =
      ((List.range xs.length).map (ncOut p xs),
        some (keysOf p xs, valuesOf p xs)) := rfl

lemma map_range_succ_drop {α : Type _} (f : ℕ → α) (m : ℕ) :
    ((List.range (m + 1)).map f).drop m = [f m] := by
  rw [List.range_succ, List.map_append, List.drop_append_eq_append_drop]
  simp

lemma mhaWei_last (qc qs ks : List HeadsVec) (m T : ℕ) (hd : Fin n_head) (j : ℕ)
    (hks : ks.length = T) (hT : T = m + 1) (hj : j < ks.length)
    (hq : hget qc 0 = hget qs m) :
    mhaWei 1 qc ks 0 hd j = mhaWei T qs ks m hd j := by
  have hsc : ∀ j', j' < ks.length → mhaScore qc ks 0 hd j' = mhaScore qs ks m hd j' :=
    fun j' _ => mhaScore_congr qc ks qs ks 0 j' m j' hd hq rfl
  unfold mhaWei
  rw [mhaMasked_single qc ks hd j hj,
    mhaMasked_some_of_le T qs ks m hd j hks (by omega), hsc j hj]
  congr 1
  apply Finset.sum_congr rfl
  intro j' hj'
  have hj'lt : j' < ks.length := Finset.mem_range.1 hj'
  rw [mhaMasked_single qc ks hd j' hj'lt,
    mhaMasked_some_of_le T qs ks m hd j' hks (by omega), hsc j' hj'lt]

lemma mhaForward_cached (p : MHAParams) (l : List (Vec n_embd)) (m : ℕ)
    (hm : m ≤ block_size + 1) (hlen : l.length = m + 1) :
    mhaForward p (l.drop m) true (some (keysOf p (l.take m), valuesOf p (l.take m))) =
      (((mhaForward p l false none).1).drop m, some (keysOf p l, valuesOf p l)) := by
  have hkt : truncCache (keysOf p (l.take m)) = keysOf p (l.take m) :=
    truncCache_of_le _ (by simp only [keysOf_length, List.length_take]; omega)
  have hvt : truncCache (valuesOf p (l.take m)) = valuesOf p (l.take m) :=
    truncCache_of_le _ (by simp only [valuesOf_length, List.length_take]; omega)
  have hkeys : keysOf p (l.take m) ++ keysOf p (l.drop m) = keysOf p l := by
    rw [← keysOf_append, List.take_append_drop]
  have hvals : valuesOf p (l.take m) ++ valuesOf p (l.drop m) = valuesOf p l := by
    rw [← valuesOf_append, List.take_append_drop]
  have hdl : (l.drop m).length = 1 := by rw [List.length_drop, hlen]; omega
  rw [mhaForward_true_some, mhaForward_false, hkt, hvt, hkeys, hvals, hdl]
  have hq0 : hget (queriesOf p (l.drop m)) 0 = hget (queriesOf p l) m := by
    unfold queriesOf
    rw [hget_map_proj _ _ _ (by omega), hget_map_proj _ _ _ (by omega),
      getD_drop, Nat.add_zero]
  refine Prod.ext ?_ rfl
  show _ = (((List.range l.length).map (ncOut p l), (none : Option KVCache)).1).drop m
  rw [hlen]
  dsimp only
  have hr1 : List.range 1 = [0] := rfl
  rw [map_range_succ_drop (ncOut p l) m, hr1, List.map_singleton]
  refine congrArg (fun x => [x]) ?_
  unfold ncOut
  apply congrArg
  apply congrArg
  funext hd d
  apply Finset.sum_congr rfl
  intro j hj
  have hjlt : j < (keysOf p l).length := Finset.mem_range.1 hj
  rw [mhaWei_last (queriesOf p (l.drop m)) (queriesOf p l) (keysOf p l) m l.length hd j
    (keysOf_length p l) (by omega) hjlt hq0]

lemma blockForward_cached (b : BlockParams) (l : List (Vec n_embd)) (m : ℕ)
    (hm : m ≤ block_size + 1) (hlen : l.length = m + 1) :
    blockForward b (l.drop m) true (some (blockCache b (l.take m))) =
      (((blockForward b l false none).1).drop m, some (blockCache b l)) := by
  unfold blockForward blockCache
  dsimp only
  rw [List.map_take, List.map_drop,
    mhaForward_cached b.sa_heads (l.map (layerNorm b.ln1)) m hm (by simpa using hlen)]
  dsimp only
  rw [← List.drop_zipWith, List.map_drop]

lemma forwardBlocks_cached (bs : List BlockParams) :
    ∀ (l : List (Vec n_embd)) (m : ℕ), m ≤ block_size + 1 → l.length = m + 1 →
      forwardBlocks bs (cachesFor bs (l.take m)) (l.drop m) true =
        ((ncBlocks bs l).drop m, cachesFor bs l) := by
  induction bs with
  | nil => intro l m hm hlen; rfl
  | cons b bs ih =>
    intro l m hm hlen
    rw [cachesFor, forwardBlocks, blockForward_cached b l m hm hlen, blockForward_take,
      ncBlocks, cachesFor]
    dsimp only
    rw [ih ((blockForward b l false none).1) m hm
      (by rw [blockForward_fst_length, hlen])]

/-! ### Model-level cached forward calls -/

lemma historyLengthV_cachesFor (bs : List BlockParams) (hne : bs ≠ [])
    (xs : List (Vec n_embd)) : historyLengthV (cachesFor bs xs) = xs.length := by
  cases bs with
  | nil => exact absurd rfl hne
  | cons b bs => simp [historyLengthV, cachesFor, blockCache]

lemma ofFn_blocks_ne_nil {V : ℕ} (p : ModelParams V) : List.ofFn p.blocks ≠ [] := by
  intro h
  have := List.length_ofFn p.blocks
  rw [h] at this
  simp [n_layer] at this

lemma blockForward_true_none (b : BlockParams) (xs : List (Vec n_embd)) :
    blockForward b xs true none =
      ((blockForward b xs false none).1, some (blockCache b xs)) := by
  unfold blockForward blockCache
  rw [mhaForward_true_none, mhaForward_false]

lemma forwardBlocks_true_none (bs : List BlockParams) :
    ∀ xs : List (Vec n_embd),
      forwardBlocks bs (List.replicate bs.length none) xs true =
        (ncBlocks bs xs, cachesFor bs xs) := by
  induction bs with
  | nil => intro xs; rfl
  | cons b bs ih =>
    intro xs
    rw [List.length_cons, List.replicate_succ, forwardBlocks,
      blockForward_true_none, ncBlocks, cachesFor]
    dsimp only
    rw [ih]

lemma forwardValue_first {V : ℕ} (p : ModelParams V) (seq : List (Fin V)) :
    forwardValue p seq true (List.replicate n_layer none) =
      (fullLogits p seq, cachesFor (List.ofFn p.blocks) (embSeq p 0 seq)) := by
  unfold forwardValue
  have hrep : (List.replicate n_layer (none : Option KVCache)) =
      List.replicate (List.ofFn p.blocks).length none := by
    rw [List.length_ofFn]
  dsimp only
  rw [historyLengthV_replicate, hrep, forwardBlocks_true_none, fullLogits_eq]

lemma forwardValue_cached {V : ℕ} (p : ModelParams V) (seq : List (Fin V)) (m : ℕ)
    (hm : m ≤ block_size + 1) (hlen : seq.length = m + 1) :
    forwardValue p (seq.drop m) true
        (cachesFor (List.ofFn p.blocks) (embSeq p 0 (seq.take m))) =
      ((fullLogits p seq).drop m,
        cachesFor (List.ofFn p.blocks) (embSeq p 0 seq)) := by
  unfold forwardValue
  dsimp only
  rw [historyLengthV_cachesFor _ (ofFn_blocks_ne_nil p) _, embSeq_length,
    List.length_take, min_eq_left (by omega : m ≤ seq.length)]
  have hx : embSeq p m (seq.drop m) = (embSeq p 0 seq).drop m := by
    rw [embSeq_drop]
    norm_num
  rw [hx, embSeq_take, forwardBlocks_cached (List.ofFn p.blocks) (embSeq p 0 seq) m hm
    (by rw [embSeq_length, hlen])]
  dsimp only
  rw [List.map_drop, ← fullLogits_eq]

/-! ### The generation loop against its reference semantics -/

@[simp] lemma specSeq_length {V : ℕ} (p : ModelParams V) (s : ℕ → Vec V → Fin V)
    (idx : List (Fin V)) : ∀ k, (specSeq p s idx k).length = idx.length + k := by
  intro k
  induction k with
  | zero => rfl
  | succ k ih => rw [specSeq, List.length_append, ih]; rfl

lemma lastVec_drop {n : ℕ} (l : List (Vec n)) (m : ℕ) (hl : l.length = m + 1) :
    lastVec (l.drop m) = lastVec l := by
  unfold lastVec
  rw [List.length_drop, hl, getD_drop]
  congr 1
  omega

lemma genIterValue_succ_last {V : ℕ} (p : ModelParams V) (s : ℕ → Vec V → Fin V) :
    ∀ (n k : ℕ) (st : List (Fin V) × List (Option KVCache) × List (Fin V)),
      genIterValue p s (n + 1) k st =
        genStepValue p s (k + n) (genIterValue p s n k st) := by
  intro n
  induction n with
  | zero => intro k st; rfl
  | succ n ih =>
    intro k st
    calc genIterValue p s (n + 2) k st
        = genIterValue p s (n + 1) (k + 1) (genStepValue p s k st) := rfl
      _ = genStepValue p s (k + 1 + n)
            (genIterValue p s n (k + 1) (genStepValue p s k st)) := ih _ _
      _ = genStepValue p s (k + (n + 1)) (genIterValue p s (n + 1) k st) := by
          rw [show k + 1 + n = k + (n + 1) by omega]
          rfl

lemma genIterValue_spec {V : ℕ} (p : ModelParams V) (s : ℕ → Vec V → Fin V)
    (prompt : List (Fin V)) (h1 : 1 ≤ prompt.length) :
    ∀ N, 1 ≤ N → prompt.length + N ≤ block_size + 2 →
      genIterValue p s N 0 (prompt, List.replicate n_layer none, prompt) =
        ([s (N - 1) (softmaxF (lastVec (fullLogits p (specSeq p s prompt (N - 1)))))],
          cachesFor (List.ofFn p.blocks) (embSeq p 0 (specSeq p s prompt (N - 1))),
          specSeq p s prompt N) := by
  intro N
  induction N with
  | zero => intro h; omega
  | succ n ih =>
    intro _ h2
    cases n with
    | zero =>
      show genStepValue p s 0 (prompt, List.replicate n_layer none, prompt) = _
      unfold genStepValue
      dsimp only
      rw [forwardValue_first]
      rfl
    | succ n' =>
      rw [genIterValue_succ_last p s (n' + 1) 0 _,
        ih (by omega) (by omega)]
      unfold genStepValue
      dsimp only
      simp only [Nat.add_sub_cancel, Nat.zero_add]
      have hsucc : specSeq p s prompt (n' + 1) =
          specSeq p s prompt n' ++
            [s n' (softmaxF (lastVec (fullLogits p (specSeq p s prompt n'))))] := rfl
      have hm : (specSeq p s prompt n').length ≤ block_size + 1 := by
        rw [specSeq_length]
        omega
      have hlen : (specSeq p s prompt (n' + 1)).length =
          (specSeq p s prompt n').length + 1 := by
        rw [specSeq_length, specSeq_length]
        omega
      have hdrop : [s n' (softmaxF (lastVec (fullLogits p (specSeq p s prompt n'))))] =
          (specSeq p s prompt (n' + 1)).drop (specSeq p s prompt n').length := by
        rw [hsucc, List.drop_left]
      have htake : cachesFor (List.ofFn p.blocks) (embSeq p 0 (specSeq p s prompt n')) =
          cachesFor (List.ofFn p.blocks)
            (embSeq p 0 ((specSeq p s prompt (n' + 1)).take
              (specSeq p s prompt n').length)) := by
        rw [hsucc, List.take_left]
      rw [hdrop, htake, forwardValue_cached p (specSeq p s prompt (n' + 1))
        (specSeq p s prompt n').length hm hlen]
      dsimp only
      rw [lastVec_drop _ _ (by rw [fullLogits_length]; exact hlen)]
      rfl

/-- C4: for every prompt and every N inside the range where generation can
run at all (prompt length + N at most block_size + 1, see C10), generating N
tokens one step at a time with the incremental key/value cache produces
exactly the same token sequence as the reference semantics that recomputes a
full non-cached forward pass over the whole growing sequence at each step
and takes the same sampled draw at each position; the run also completes at
shape level with the full length. -/
theorem generate_cache_equivalence {V : ℕ} (p : ModelParams V) (prompt : List (Fin V))
    (N : ℕ) (s : ℕ → Vec V → Fin V) (h1 : 1 ≤ prompt.length)
    (h2 : prompt.length + N ≤ block_size + 1) :
    generateValue p prompt N s = specSeq p s prompt N ∧
      generateShape prompt.length N = .ok (prompt.length + N) := by
  constructor
  · cases N with
    | zero => rfl
    | succ n =>
      unfold generateValue
      rw [genIterValue_spec p s prompt h1 (n + 1) (by omega) (by omega)]
  · exact generateShape_ok _ _ h1 h2

/-- C9 (amended): for every prompt of length T at least 1 and every N with
T + N at most block_size + 1, generate returns a sequence of length T + N;
each successive call extends the previous output by exactly one token drawn
by the sampler (torch.multinomial, not argmax) from the softmax of the
logits at the last position; for larger N generation instead fails with an
out-of-range position-embedding lookup (see the counterexample). -/
theorem generate_samples_softmax {V : ℕ} (p : ModelParams V) (prompt : List (Fin V))
    (N : ℕ) (s : ℕ → Vec V → Fin V) (h1 : 1 ≤ prompt.length)
    (h2 : prompt.length + N ≤ block_size + 1) :
    (generateValue p prompt N s).length = prompt.length + N ∧
      generateShape prompt.length N = .ok (prompt.length + N) ∧
      ∀ k, k < N → generateValue p prompt (k + 1) s =
          generateValue p prompt k s ++
            [s k (softmaxF (lastVec (fullLogits p (generateValue p prompt k s))))] := by
  have hval : ∀ k, k ≤ N → generateValue p prompt k s = specSeq p s prompt k := by
    intro k hk
    cases k with
    | zero => rfl
    | succ n =>
      unfold generateValue
      rw [genIterValue_spec p s prompt h1 (n + 1) (by omega) (by omega)]
  refine ⟨?_, generateShape_ok _ _ h1 h2, ?_⟩
  · rw [hval N le_rfl, specSeq_length]
  · intro k hk
    rw [hval (k + 1) (by omega), hval k (by omega)]
    rfl

/-! ### The attention scale factor -/

lemma invSqrtScale_eq_sqrt_inv (n : ℕ) : invSqrtScale n = (Real.sqrt (n : ℝ))⁻¹ := by
  unfold invSqrtScale
  rw [Real.rpow_neg (Nat.cast_nonneg n), Real.sqrt_eq_rpow]

lemma sqrt_inv_n_embd_ne_head_size :
    (Real.sqrt ((n_embd : ℕ) : ℝ))⁻¹ ≠ (Real.sqrt ((head_size : ℕ) : ℝ))⁻¹ := by
  have e1 : ((n_embd : ℕ) : ℝ) = 384 := by norm_num [n_embd]
  have e2 : ((head_size : ℕ) : ℝ) = 64 := by norm_num [head_size, n_embd, n_head]
  rw [e1, e2]
  intro h
  rw [inv_inj, Real.sqrt_inj (by norm_num) (by norm_num)] at h
  norm_num at h

/-- C7 (amended): the multi-head attention engine the model runs scales its
query-key dot products by exactly 1/sqrt(head_size), the per-head dimension,
and its softmax normalises along the key dimension; but the standalone Head
class (part of the cited sources, dead code) scales by 1/sqrt(n_embd), the
full channel width, and the two factors differ. -/
theorem attention_scale_factor {hs : ℕ} (qs ks : List HeadsVec) (T i j : ℕ)
    (hd : Fin n_head) (hp : HeadParams hs) (xs : List (Vec n_embd)) (i' j' : ℕ) :
    mhaScore qs ks i hd j =
        (∑ d, hget qs i hd d * hget ks j hd d) * (Real.sqrt ((head_size : ℕ) : ℝ))⁻¹ ∧
      mhaWei T qs ks i hd j =
        mexp (mhaMasked T qs ks i hd j) /
          ∑ j' ∈ Finset.range ks.length, mexp (mhaMasked T qs ks i hd j') ∧
      headScores hp xs i' j' =
        (∑ d : Fin hs, linearNB hp.query (xs.getD i' 0) d *
            linearNB hp.key (xs.getD j' 0) d) * (Real.sqrt ((n_embd : ℕ) : ℝ))⁻¹ ∧
      (Real.sqrt ((n_embd : ℕ) : ℝ))⁻¹ ≠ (Real.sqrt ((head_size : ℕ) : ℝ))⁻¹ := by
  refine ⟨?_, rfl, ?_, sqrt_inv_n_embd_ne_head_size⟩
  · unfold mhaScore
    rw [invSqrtScale_eq_sqrt_inv]
  · unfold headScores
    rw [invSqrtScale_eq_sqrt_inv]

/-! ### The transformer block forward formula -/

lemma getD_zipWith_add (l₁ l₂ : List (Vec n_embd)) :
    ∀ i : ℕ, i < l₁.length → i < l₂.length →
      (List.zipWith (· + ·) l₁ l₂).getD i 0 = l₁.getD i 0 + l₂.getD i 0 := by
  induction l₁ generalizing l₂ with
  | nil => intro i h₁ _; simp at h₁
  | cons a l₁ ih =>
    intro i h₁ h₂
    cases l₂ with
    | nil => simp at h₂
    | cons b l₂ =>
      cases i with
      | zero => rfl
      | succ i =>
        simp only [List.zipWith_cons_cons, List.getD_cons_succ]
        exact ih l₂ i (by simpa using h₁) (by simpa using h₂)

/-- C8: the transformer block computes exactly the pre-norm residual form
of the spec: with a = attention applied to the normalised input, the output
at every position i is (x_i + a_i) + FeedForward(Normalize(x_i + a_i)):
normalisation is applied to each sub-layer's input, never to the residual
sum. -/
theorem block_pre_norm (b : BlockParams) (xs : List (Vec n_embd)) (uc : Bool)
    (kv : Option KVCache) (i : ℕ) (hi : i < xs.length) :
    ((blockForward b xs uc kv).1).getD i 0 =
      (xs.getD i 0 +
          ((mhaForward b.sa_heads (xs.map (layerNorm b.ln1)) uc kv).1).getD i 0) +
        ffForward b.ffwd (layerNorm b.ln2
          (xs.getD i 0 +
            ((mhaForward b.sa_heads (xs.map (layerNorm b.ln1)) uc kv).1).getD i 0)) := by
  have hA : ((mhaForward b.sa_heads (xs.map (layerNorm b.ln1)) uc kv).1).length =
      xs.length := by
    rw [mhaForward_fst_length, List.length_map]
  unfold blockForward
  dsimp only
  rw [getD_map_of_lt _ _ i (by rw [List.length_zipWith, hA, min_self]; exact hi) _ 0,
    getD_zipWith_add _ _ i hi (by rw [hA]; exact hi)]

lemma e0vec_sum : ∑ i, e0vec i = 1 := by
  unfold e0vec
  rw [Finset.sum_ite_eq' Finset.univ finZero fun _ => (1 : ℝ)]
  simp

lemma linearNB_ones_e0vec {hs : ℕ} (d : Fin hs) :
    linearNB (fun _ _ => (1 : ℝ)) e0vec d = 1 := by
  unfold linearNB
  simp only [one_mul]
  exact e0vec_sum

/-- C7 counterexample: the claim says every attention-engine forward scales
scores by exactly 1/sqrt(head_dim).  The Head class at line 88 scales by
C ** -0.5 with C = x.shape[2] = n_embd: on an all-ones Head with a one-hot
input its score is head_size / sqrt(n_embd), which differs from the claimed
head_size / sqrt(head_size). -/
theorem head_scale_cex :
    headScores onesHead [e0vec] 0 0 =
        ((head_size : ℕ) : ℝ) * (Real.sqrt ((n_embd : ℕ) : ℝ))⁻¹ ∧
      ((head_size : ℕ) : ℝ) * (Real.sqrt ((n_embd : ℕ) : ℝ))⁻¹ ≠
        ((head_size : ℕ) : ℝ) * (Real.sqrt ((head_size : ℕ) : ℝ))⁻¹ := by
  constructor
  · unfold headScores
    rw [invSqrtScale_eq_sqrt_inv]
    congr 1
    have hget0 : ([e0vec].getD 0 0) = e0vec := rfl
    rw [hget0]
    have hq : ∀ d : Fin head_size, linearNB onesHead.query e0vec d = 1 :=
      fun d => linearNB_ones_e0vec d
    have hk : ∀ d : Fin head_size, linearNB onesHead.key e0vec d = 1 :=
      fun d => linearNB_ones_e0vec d
    rw [Finset.sum_congr rfl fun d _ => by rw [hq d, hk d, one_mul]]
    simp
  · intro h
    have hhs : ((head_size : ℕ) : ℝ) ≠ 0 := by norm_num [head_size, n_embd, n_head]
    exact sqrt_inv_n_embd_ne_head_size (mul_left_cancel₀ hhs h)

/-- C3 witness: two concrete inputs that agree at position 0 and differ at
position 1. -/
theorem attention_causality_witness :
    0 < xsA.length ∧ 0 < xsB.length ∧ xsA.take 1 = xsB.take 1 ∧
      0 < sigA.length ∧ sigA.take 1 = sigA.take 1 ∧
      (((mhaForward zeroMHA xsA false none).1).getD 0 0 =
          ((mhaForward zeroMHA xsB false none).1).getD 0 0 ∧
        (fullLogits zeroModel sigA).getD 0 0 = (fullLogits zeroModel sigA).getD 0 0) :=
  ⟨by simp [xsA], by simp [xsB], rfl, by simp [sigA], rfl,
    attention_causality zeroMHA zeroModel xsA xsB sigA sigA 0
      (by simp [xsA]) (by simp [xsB]) rfl (by simp [sigA]) (by simp [sigA]) rfl⟩

/-- C4 witness: a one-token prompt generating one token. -/
theorem generate_cache_equivalence_witness :
    1 ≤ promptW.length ∧ promptW.length + 1 ≤ block_size + 1 ∧
      (generateValue zeroModel promptW 1 constSampler =
          specSeq zeroModel constSampler promptW 1 ∧
        generateShape promptW.length 1 = .ok (promptW.length + 1)) :=
  ⟨by simp [promptW], by norm_num [promptW, block_size],
    generate_cache_equivalence zeroModel promptW 1 constSampler
      (by simp [promptW]) (by norm_num [promptW, block_size])⟩

/-- C9 witness: a one-token prompt generating one token. -/
theorem generate_samples_softmax_witness :
    1 ≤ promptW.length ∧ promptW.length + 1 ≤ block_size + 1 ∧
      ((generateValue zeroModel promptW 1 constSampler).length = promptW.length + 1 ∧
        generateShape promptW.length 1 = .ok (promptW.length + 1) ∧
        ∀ k, k < 1 → generateValue zeroModel promptW (k + 1) constSampler =
            generateValue zeroModel promptW k constSampler ++
              [constSampler k (softmaxF (lastVec (fullLogits zeroModel
                (generateValue zeroModel promptW k constSampler))))]) :=
  ⟨by simp [promptW], by norm_num [promptW, block_size],
    generate_samples_softmax zeroModel promptW 1 constSampler
      (by simp [promptW]) (by norm_num [promptW, block_size])⟩

/-- C8 witness: the zero block on a single zero vector. -/
theorem block_pre_norm_witness :
    0 < ([(0 : Vec n_embd)]).length ∧
      ((blockForward zeroBlock [(0 : Vec n_embd)] false none).1).getD 0 0 =
        (([(0 : Vec n_embd)]).getD 0 0 +
            ((mhaForward zeroBlock.sa_heads
              (([(0 : Vec n_embd)]).map (layerNorm zeroBlock.ln1)) false none).1).getD 0 0) +
          ffForward zeroBlock.ffwd (layerNorm zeroBlock.ln2
            (([(0 : Vec n_embd)]).getD 0 0 +
              ((mhaForward zeroBlock.sa_heads
                (([(0 : Vec n_embd)]).map (layerNorm zeroBlock.ln1)) false none).1).getD 0 0)) :=
  ⟨by simp, block_pre_norm zeroBlock [(0 : Vec n_embd)] false none 0 (by simp)⟩

end NanoGPT
